import Mathlib

/-!
Verification of the French-transition compliance validator
(`src/utils/validate_prompt_compliance.py`).

Modelling conventions:
* Text is modelled as `List Nat`, each `Nat` a Unicode code point
  (`chars` converts a Lean string literal to this representation).
* Python's `string.punctuation` is the fixed ASCII set, expressed below by
  code-point ranges; `str.split()` splits on whitespace runs; `str.lower()`
  is modelled on the ASCII range (the inputs in this development are
  effectively ASCII-lowercase-stable, and none of the verified properties
  depend on non-ASCII case mapping).
* The two process-wide vocabularies (`FRENCH_STOPWORDS`,
  `STYLISTIC_EXPRESSIONS`) are loaded from resource files at startup; the
  validator only ever uses them through membership / iteration, so they are
  passed as explicit parameters (`stop`, `exprs`), one list element per
  vocabulary entry.
* Python dicts with optional keys become a structure with an `Option` field
  (`none` = key absent) and a `Bool` field for the key that is only ever set
  to `True`.
* Python `set` accumulation becomes `Finset`; `sorted(list(s))` becomes
  `Finset.sort (· ≤ ·)`.
-/

/-- Code points of a string literal; convenience for concrete inputs. -/
def chars (s : String) : List Nat := s.toList.map Char.toNat

/-- Python `str.split()` whitespace (ASCII range: space, \t, \n, \v, \f, \r). -/
def isWs (c : Nat) : Bool := c == 32 || c == 9 || c == 10 || c == 11 || c == 12 || c == 13

/-- Membership in Python's `string.punctuation`
(ASCII 33–47, 58–64, 91–96, 123–126). -/
def isPunct (c : Nat) : Bool :=
  (33 ≤ c && c ≤ 47) || (58 ≤ c && c ≤ 64) || (91 ≤ c && c ≤ 96) || (123 ≤ c && c ≤ 126)

/-- `str.lower()` on a code point (ASCII case mapping). -/
def pyLower (c : Nat) : Nat := if 65 ≤ c && c ≤ 90 then c + 32 else c

/-- `text.replace("'", " ")` on one code point (39 is the apostrophe, 32 the space). -/
def repApos (c : Nat) : Nat := if c == 39 then 32 else c

/-- Python `str.strip()`: drop leading and trailing whitespace. -/
def pyStrip (w : List Nat) : List Nat :=
  ((w.dropWhile isWs).reverse.dropWhile isWs).reverse

/-- Worker for `splitWs`; `acc` holds the current in-progress word, reversed. -/
def splitWsAux : List Nat → List Nat → List (List Nat)
  | [], acc => if acc = [] then [] else [acc.reverse]
  | c :: cs, acc =>
    if isWs c then
      (if acc = [] then splitWsAux cs [] else acc.reverse :: splitWsAux cs [])
    else splitWsAux cs (c :: acc)

/-- Python `str.split()` (no argument): maximal whitespace-free runs, in order. -/
def splitWs (l : List Nat) : List (List Nat) := splitWsAux l []

/-- `tokenize` from the source: replace apostrophes by spaces, delete the
`string.punctuation` characters (`str.translate`), lower-case, split on
whitespace, strip each word and drop empties. -/
def tokenize (text : List Nat) : List (List Nat) :=
  let replaced := text.map repApos
  let cleaned := (replaced.filter (fun c => !isPunct c)).map pyLower
  ((splitWs cleaned).map pyStrip).filter (fun w => !w.isEmpty)

/-- `' '.join` on a list of words. -/
def joinSpaces : List (List Nat) → List Nat
  | [] => []
  | [w] => w
  | w :: ws => w ++ 32 :: joinSpaces ws

/-- `extract_ngrams` from the source:
`[' '.join(words[i:i+n]) for i in range(len(words)-n+1)]`
(the Python range is empty when `len(words)-n+1` is negative, which the
truncated `Nat` subtraction `words.length + 1 - n` reproduces exactly). -/
def extract_ngrams (words : List (List Nat)) (n : Nat) : List (List Nat) :=
  (List.range (words.length + 1 - n)).map (fun i => joinSpaces ((words.drop i).take n))

/-- `True` iff `pat` is an initial segment of `s` (code-point equality). -/
def startsWith : List Nat → List Nat → Bool
  | [], _ => true
  | _ :: _, [] => false
  | a :: as, b :: bs => a == b && startsWith as bs

/-- `\w` on a code point: ASCII letters, digits, underscore; every code point
above 127 is treated as a word character (Python's Unicode `\w` on the letters
occurring in this code base). -/
def isWordChar (c : Nat) : Bool :=
  (48 ≤ c && c ≤ 57) || (65 ≤ c && c ≤ 90) || (97 ≤ c && c ≤ 122) || c == 95 || 127 < c

/-- `re.search` for the fixed templates of shape `LIT\w+`: some occurrence of
the literal `lit` in `s` is immediately followed by a word character. -/
def litThenWordAt (lit s : List Nat) : Bool :=
  (List.range s.length).any (fun i =>
    startsWith lit (s.drop i) &&
      (match (s.drop i).drop lit.length with
        | c :: _ => isWordChar c
        | [] => false))

/-- `re.search` for a purely literal template: `lit` occurs somewhere in `s`. -/
def litAt (lit s : List Nat) : Bool :=
  (List.range (s.length + 1)).any (fun i => startsWith lit (s.drop i))

/-- Disjunction of `litThenWordAt` over the branches of a regex alternation. -/
def anyLitThenWord (lits : List (List Nat)) (s : List Nat) : Bool :=
  lits.any (fun l => litThenWordAt l s)

/-- Disjunction of `litAt` over the branches of a regex alternation. -/
def anyLit (lits : List (List Nat)) (s : List Nat) : Bool :=
  lits.any (fun l => litAt l s)

/-- The six hard-coded flexible patterns of `check_flexible_patterns`, each as
(matcher on the lower-cased transition, the verbatim pattern string recorded as
the violation payload).  Each regex is an alternation of literals, a literal
infix, and for the `\w+` templates one mandatory trailing word character, which
is exactly what `re.search` tests for these fixed expressions.  Code point 92
is the backslash and 39 the apostrophe of the raw pattern string
`dans l\'actualité \w+`. -/
def flexMatchers : List ((List Nat → Bool) × List Nat) :=
  [ (anyLitThenWord [chars "sur un autre ", chars "dans un autre ", chars "par un autre "],
      chars "(sur|dans|par) un autre \\w+"),
    (anyLitThenWord [chars "sur la même ", chars "dans la même ", chars "par la même "],
      chars "(sur|dans|par) la même \\w+"),
    (anyLitThenWord [chars "sur le même ", chars "dans le même ", chars "par le même "],
      chars "(sur|dans|par) le même \\w+"),
    (litThenWordAt (chars "dans l" ++ [39] ++ chars "actualité "),
      chars "dans l" ++ [92, 39] ++ chars "actualité \\w+"),
    (anyLit [chars "pour terminer", chars "pour conclure", chars "pour finir"],
      chars "pour (terminer|conclure|finir)"),
    (anyLitThenWord [chars "signalons ", chars "sachez ", chars "nous "],
      chars "(signalons|sachez|nous) \\w+") ]

/-- `check_flexible_patterns` from the source: for each fixed template, collect
the transitions whose lower-cased text matches; if more than one matches,
record the template string itself. -/
def check_flexible_patterns (transitions : List (List Nat)) : List (List Nat) :=
  flexMatchers.filterMap (fun pm =>
    if 1 < (transitions.filter (fun t => pm.1 (t.map pyLower))).length then some pm.2 else none)

/-- The bigrams followed by the trigrams of one transition, as appended to
`all_ngrams` by the loop body of `check_stylistic_patterns`. -/
def transNgrams (t : List Nat) : List (List Nat) :=
  extract_ngrams (tokenize t) 2 ++ extract_ngrams (tokenize t) 3

/-- `all_ngrams` of `check_stylistic_patterns`: bigrams and trigrams of every
transition of the group, in loop order. -/
def groupNgrams (transitions : List (List Nat)) : List (List Nat) :=
  transitions.flatMap transNgrams

/-- `check_stylistic_patterns` from the source: a known stylistic expression is
a violation when its count among the group's n-grams exceeds 1.  `exprs`
enumerates `STYLISTIC_EXPRESSIONS`. -/
def check_stylistic_patterns (exprs : List (List Nat)) (transitions : List (List Nat)) :
    List (List Nat) :=
  exprs.filter (fun e => 1 < (groupNgrams transitions).count e)

/-- Worker for `pyDedup`: drop elements already in `seen`, keep first
occurrences. -/
def pyDedupAux (seen : List (List Nat)) : List (List Nat) → List (List Nat)
  | [] => []
  | a :: t => if a ∈ seen then pyDedupAux seen t else a :: pyDedupAux (a :: seen) t

/-- First-occurrence deduplication: the key order of a Python `Counter` built
from a list (insertion order of first occurrences). -/
def pyDedup (l : List (List Nat)) : List (List Nat) := pyDedupAux [] l

/-- `first_words` of `check_transition_group`: the first token of each
transition that has any token. -/
def firstWords (transitions : List (List Nat)) : List (List Nat) :=
  transitions.filterMap (fun t => (tokenize t).head?)

/-- `repeated_first_words`: the first-token values occurring more than once,
in `Counter` key order. -/
def repeatedFirstWords (transitions : List (List Nat)) : List (List Nat) :=
  (pyDedup (firstWords transitions)).filter (fun w => 1 < (firstWords transitions).count w)

/-- `all_content_words`: for transitions with more than one token, the tokens
after the first that are nonempty and not stopwords.  `stop` enumerates
`FRENCH_STOPWORDS`. -/
def contentWords (stop : List (List Nat)) (transitions : List (List Nat)) : List (List Nat) :=
  transitions.flatMap (fun t =>
    let words := tokenize t
    if 1 < words.length then
      (words.drop 1).filter (fun w => !w.isEmpty && !stop.contains w)
    else [])

/-- `repeated_content_words`: pooled content words occurring more than once. -/
def repeatedContentWords (stop : List (List Nat)) (transitions : List (List Nat)) :
    List (List Nat) :=
  (pyDedup (contentWords stop transitions)).filter
    (fun w => 1 < (contentWords stop transitions).count w)

/-- The violation record of one group: the Python dict with optional keys
`"repetition"` (`none` = key absent) and `"enfin_misplaced"` (only ever set to
`True`; `false` = key absent). -/
structure Violations where
  repetition : Option (List (List Nat))
  enfin_misplaced : Bool
deriving DecidableEq

/-- One incremental update of `violations["repetition"]`: extend the existing
list when the key is present, create it otherwise, and do nothing when the new
batch of offenders is empty. -/
def addRep (v : Option (List (List Nat))) (r : List (List Nat)) : Option (List (List Nat)) :=
  if r = [] then v
  else match v with
    | some l => some (l ++ r)
    | none => some r

/-- The `enumerate` loop of the 'enfin' placement check: the first transition
at an index other than the last whose tokens contain "enfin" sets the flag
(`||` short-circuits exactly where the Python loop `break`s). -/
def enfinScan (len : Nat) : Nat → List (List Nat) → Bool
  | _, [] => false
  | i, t :: rest =>
    ((tokenize t).contains (chars "enfin") && i != len - 1) || enfinScan len (i + 1) rest

/-- The 'enfin' placement check of `check_transition_group`. -/
def enfinMisplaced (transitions : List (List Nat)) : Bool :=
  enfinScan transitions.length 0 transitions

/-- `check_transition_group` from the source: merge the four repetition
detectors into one `repetition` payload, in source order, then run the 'enfin'
placement scan. -/
def check_transition_group (stop exprs : List (List Nat)) (transitions : List (List Nat)) :
    Violations :=
  let v1 := addRep none (repeatedFirstWords transitions)
  let v2 := addRep v1 (repeatedContentWords stop transitions)
  let v3 := addRep v2 (check_stylistic_patterns exprs transitions)
  let v4 := addRep v3 (check_flexible_patterns transitions)
  ⟨v4, enfinMisplaced transitions⟩

/-- One entry of the `details` list of the batch report. -/
structure Detail where
  output_id : String
  transitions : List (List Nat)
  violations : Violations
deriving DecidableEq

/-- `violations_summary.repetition` of the batch report. -/
structure RepSummary where
  count : Nat
  affected_outputs : List String
  violated_words : List (List Nat)
deriving DecidableEq

/-- `violations_summary.enfin_misplaced` of the batch report. -/
structure EnfinSummary where
  count : Nat
  affected_outputs : List String
deriving DecidableEq

/-- `violations_summary` of the batch report. -/
structure ViolationsSummary where
  repetition : RepSummary
  enfin_misplaced : EnfinSummary
deriving DecidableEq

/-- The return value of `validate_batch`. -/
structure BatchReport where
  total_outputs : Nat
  outputs_with_violations : Nat
  violations_summary : ViolationsSummary
  details : List Detail
deriving DecidableEq

/-- The accumulation loop of `validate_batch`: the running sets
`repetition_violations`, `repetition_affected_outputs`,
`enfin_misplaced_outputs`, and the `details` list. -/
def validateLoop (stop exprs : List (List Nat)) :
    List (String × List (List Nat)) →
    Finset (List Nat) → Finset String → Finset String → List Detail →
    Finset (List Nat) × Finset String × Finset String × List Detail
  | [], rv, ra, ea, ds => (rv, ra, ea, ds)
  | (k, ts) :: rest, rv, ra, ea, ds =>
    let v := check_transition_group stop exprs ts
    let rv' := match v.repetition with
      | some l => rv ∪ l.toFinset
      | none => rv
    let ra' := if v.repetition.isSome then insert k ra else ra
    let ea' := if v.enfin_misplaced then insert k ea else ea
    validateLoop stop exprs rest rv' ra' ea' (ds ++ [⟨k, ts, v⟩])

/-- `validate_batch` from the source: run `check_transition_group` on every
(key, group) pair, accumulate the summary sets, and report
`len(repetition_affected_outputs | enfin_misplaced_outputs)` as
`outputs_with_violations`; `sorted(list(s))` is `Finset.sort (· ≤ ·)`. -/
def validate_batch (stop exprs : List (List Nat))
    (batch_outputs : List (String × List (List Nat))) : BatchReport :=
  let acc := validateLoop stop exprs batch_outputs ∅ ∅ ∅ []
  { total_outputs := batch_outputs.length
    outputs_with_violations := (acc.2.1 ∪ acc.2.2.1).card
    violations_summary :=
      { repetition :=
          { count := acc.2.1.card
            affected_outputs := acc.2.1.sort (· ≤ ·)
            violated_words := acc.1.sort (· ≤ ·) }
        enfin_misplaced :=
          { count := acc.2.2.1.card
            affected_outputs := acc.2.2.1.sort (· ≤ ·) } }
    details := acc.2.2.2 }

/-- The set of group keys whose group has at least one repetition violation
(a nonempty `repetition` payload), stated declaratively from the input. -/
def repAffected (stop exprs : List (List Nat))
    (batch : List (String × List (List Nat))) : Finset String :=
  ((batch.filter (fun p =>
    !((check_transition_group stop exprs p.2).repetition.getD []).isEmpty)).map
      Prod.fst).toFinset

/-- The set of group keys whose group has `enfin_misplaced`, stated
declaratively from the input. -/
def enfinAffected (stop exprs : List (List Nat))
    (batch : List (String × List (List Nat))) : Finset String :=
  ((batch.filter (fun p =>
    (check_transition_group stop exprs p.2).enfin_misplaced)).map Prod.fst).toFinset

/-- A Python value as far as `tokenize` distinguishes them: a string, or a
non-string (modelled by the two non-string shapes the surrounding application
could feed in).  `tokenize` starts with `text.replace(...)`, so a non-string
raises `AttributeError` under Python's dynamic semantics. -/
inductive PyVal where
  | pyStr (s : List Nat)
  | pyInt (n : Int)
  | pyNone
deriving DecidableEq

/-- `tokenize`'s implicit duck-typing contract: strings pass through, any
non-string raises `AttributeError` at `text.replace`. -/
def asStr : PyVal → Except (List Nat) (List Nat)
  | .pyStr s => .ok s
  | _ => .error (chars "AttributeError")

/-- Whether a `PyVal` is a string. -/
def isPyStr : PyVal → Bool
  | .pyStr _ => true
  | _ => false

/-- `check_transition_group` under Python dynamic semantics: every check first
tokenizes each transition, so a non-string transition raises out of the
function; otherwise the typed result is produced. -/
def check_transition_group_dyn (stop exprs : List (List Nat)) (ts : List PyVal) :
    Except (List Nat) Violations := do
  let ss ← ts.mapM asStr
  pure (check_transition_group stop exprs ss)

/-- `validate_batch` under Python dynamic semantics: the exception of the first
offending group propagates out of the loop; otherwise the typed report is
produced. -/
def validate_batch_dyn (stop exprs : List (List Nat))
    (batch : List (String × List PyVal)) : Except (List Nat) BatchReport := do
  let b ← batch.mapM (fun p => do
    let ss ← p.2.mapM asStr
    pure (p.1, ss))
  pure (validate_batch stop exprs b)

example : tokenize (chars "Par ailleurs,") = [chars "par", chars "ailleurs"] := by decide
example : tokenize (chars "l'ecole est la") = [chars "l", chars "ecole", chars "est", chars "la"] := by decide
example : tokenize (chars "") = [] := by decide
example : tokenize (chars "   ") = [] := by decide
example : extract_ngrams [chars "a", chars "b", chars "c"] 2 = [chars "a b", chars "b c"] := by decide
example : extract_ngrams [chars "a"] 3 = [] := by decide
example : check_transition_group [] []
    [chars "Par ailleurs,", chars "Par contre,", chars "Par exemple,"] =
    ⟨some [chars "par"], false⟩ := by decide
example : check_transition_group [] []
    [chars "Enfin, une annonce importante", chars "Puis une autre nouvelle",
     chars "Pour conclure,"] = ⟨some [chars "une"], true⟩ := by decide
example : check_stylistic_patterns [chars "en conclusion"]
    [chars "en conclusion en conclusion"] = [chars "en conclusion"] := by decide
example : check_flexible_patterns
    [chars "Dans un autre registre,", chars "dans un autre monde"] =
    [chars "(sur|dans|par) un autre \\w+"] := by decide
example : check_flexible_patterns [chars "Dans un autre registre,"] = [] := by decide

/-! ### Character-level helper lemmas -/

lemma isPunct_pyLower {c : Nat} (h : isPunct c = false) : isPunct (pyLower c) = false := by
  simp only [isPunct, pyLower, Bool.or_eq_false_iff, Bool.and_eq_false_iff,
    decide_eq_false_iff_not, not_le] at h ⊢
  split_ifs with hc
  · simp only [Bool.and_eq_true, decide_eq_true_eq] at hc
    omega
  · exact h

lemma pyLower_pyLower (c : Nat) : pyLower (pyLower c) = pyLower c := by
  simp only [pyLower]
  split_ifs with h₁ h₂ <;>
    simp_all only [Bool.and_eq_true, decide_eq_true_eq, Bool.and_eq_false_iff,
      decide_eq_false_iff_not, not_le] <;> omega

lemma pyLower_ne_apos {c : Nat} (h : isPunct c = false) : pyLower c ≠ 39 := by
  simp only [isPunct, Bool.or_eq_false_iff, Bool.and_eq_false_iff,
    decide_eq_false_iff_not, not_le] at h
  unfold pyLower
  split_ifs with hc
  · simp only [Bool.and_eq_true, decide_eq_true_eq] at hc
    omega
  · omega

lemma repApos_eq_self {c : Nat} (h : c ≠ 39) : repApos c = c := by
  simp [repApos, h]

lemma ws_char_stable {c : Nat} (h : isWs c = true) :
    repApos c = c ∧ isPunct c = false ∧ pyLower c = c ∧ isWs (pyLower c) = true := by
  simp only [isWs, Bool.or_eq_true, beq_iff_eq] at h
  rcases h with ((((rfl | rfl) | rfl) | rfl) | rfl) | rfl <;>
    exact ⟨by decide, by decide, by decide, by decide⟩

/-! ### C7: the n-gram count law -/

/-- C7: for a token sequence of length `L` and window `n ≥ 1`,
`extract_ngrams` returns exactly `max 0 (L - n + 1)` n-grams (integer
arithmetic), the `i`-th being the space-joined window `tokens[i..i+n)` in
order, and `n > L` yields the empty sequence rather than an error. -/
theorem extract_ngrams_count_law (words : List (List Nat)) (n : Nat) (hn : 1 ≤ n) :
    ((extract_ngrams words n).length : ℤ) = max 0 ((words.length : ℤ) - n + 1) ∧
    (∀ i, ∀ h : i < (extract_ngrams words n).length,
      (extract_ngrams words n).get ⟨i, h⟩ = joinSpaces ((words.drop i).take n)) ∧
    (words.length < n → extract_ngrams words n = []) := by
  refine ⟨?_, ?_, ?_⟩
  · simp only [extract_ngrams, List.length_map, List.length_range]
    omega
  · intro i h
    simp [extract_ngrams, List.get_eq_getElem]
  · intro hlt
    have hz : words.length + 1 - n = 0 := by omega
    simp [extract_ngrams, hz]

/-- Witness for `extract_ngrams_count_law` at a concrete input. -/
theorem extract_ngrams_count_law_witness :
    1 ≤ 2 ∧
    (((extract_ngrams [chars "a", chars "b", chars "c"] 2).length : ℤ) =
        max 0 ((([chars "a", chars "b", chars "c"] : List (List Nat)).length : ℤ) - 2 + 1) ∧
      (∀ i, ∀ h : i < (extract_ngrams [chars "a", chars "b", chars "c"] 2).length,
        (extract_ngrams [chars "a", chars "b", chars "c"] 2).get ⟨i, h⟩ =
          joinSpaces ((([chars "a", chars "b", chars "c"] : List (List Nat)).drop i).take 2)) ∧
      (([chars "a", chars "b", chars "c"] : List (List Nat)).length < 2 →
        extract_ngrams [chars "a", chars "b", chars "c"] 2 = [])) :=
  ⟨by decide, extract_ngrams_count_law [chars "a", chars "b", chars "c"] 2 (by decide)⟩

/-! ### C2: placement of the closing word "enfin" -/

lemma enfinScan_iff (len : Nat) :
    ∀ (l : List (List Nat)) (i : Nat),
      enfinScan len i l = true ↔
        ∃ j, ∃ h : j < l.length,
          (i + j) ≠ len - 1 ∧ chars "enfin" ∈ tokenize (l.get ⟨j, h⟩) := by
  intro l
  induction l with
  | nil => intro i; simp [enfinScan]
  | cons t rest ih =>
    intro i
    simp only [enfinScan, Bool.or_eq_true, Bool.and_eq_true, ih (i + 1)]
    constructor
    · rintro (⟨hmem, hne⟩ | ⟨j, hj, hne, hmem⟩)
      · refine ⟨0, by simp, ?_, ?_⟩
        · simpa [bne_iff_ne] using hne
        · simpa [List.contains, List.elem_iff] using hmem
      · exact ⟨j + 1, by simpa using Nat.succ_lt_succ hj, by omega, by simpa using hmem⟩
    · rintro ⟨j, hj, hne, hmem⟩
      cases j with
      | zero =>
        left
        refine ⟨by simpa [List.contains, List.elem_iff] using hmem, ?_⟩
        simpa [bne_iff_ne] using hne
      | succ j =>
        right
        have hj' : j < rest.length := by
          simp only [List.length_cons] at hj
          omega
        exact ⟨j, hj', by omega, by simpa using hmem⟩

/-! ### Whitespace splitting -/

lemma splitWsAux_word_append (r : List Nat) :
    ∀ (w acc : List Nat), (∀ c ∈ w, isWs c = false) → (w ≠ [] ∨ acc ≠ []) →
      splitWsAux (w ++ 32 :: r) acc = (acc.reverse ++ w) :: splitWsAux r [] := by
  intro w
  induction w with
  | nil =>
    intro acc _ hne
    have hacc : acc ≠ [] := by
      rcases hne with h | h
      · exact absurd rfl h
      · exact h
    simp [splitWsAux, isWs, hacc]
  | cons c w ih =>
    intro acc h _
    have hc : isWs c = false := h c (List.mem_cons_self c w)
    simp only [List.cons_append, splitWsAux, hc, Bool.false_eq_true, if_false]
    show splitWsAux (w ++ 32 :: r) (c :: acc) = (acc.reverse ++ c :: w) :: splitWsAux r []
    rw [ih (c :: acc) (fun d hd => h d (List.mem_cons_of_mem c hd)) (Or.inr (by simp))]
    simp

lemma splitWsAux_word :
    ∀ (w acc : List Nat), (∀ c ∈ w, isWs c = false) → (w ≠ [] ∨ acc ≠ []) →
      splitWsAux w acc = [acc.reverse ++ w] := by
  intro w
  induction w with
  | nil =>
    intro acc _ hne
    have hacc : acc ≠ [] := by
      rcases hne with h | h
      · exact absurd rfl h
      · exact h
    simp [splitWsAux, hacc]
  | cons c w ih =>
    intro acc h _
    have hc : isWs c = false := h c (List.mem_cons_self c w)
    simp only [splitWsAux, hc, Bool.false_eq_true, if_false]
    rw [ih (c :: acc) (fun d hd => h d (List.mem_cons_of_mem c hd)) (Or.inr (by simp))]
    simp

/-- Splitting the single-space join of nonempty whitespace-free words
recovers the words. -/
lemma splitWs_joinSpaces :
    ∀ ws : List (List Nat), (∀ w ∈ ws, w ≠ [] ∧ ∀ c ∈ w, isWs c = false) →
      splitWs (joinSpaces ws) = ws := by
  intro ws
  induction ws with
  | nil => intro _; rfl
  | cons w ws ih =>
    intro h
    cases ws with
    | nil =>
      show splitWsAux (joinSpaces [w]) [] = [w]
      rw [show joinSpaces [w] = w from rfl]
      rw [splitWsAux_word w [] (h w (by simp)).2 (Or.inl (h w (by simp)).1)]
      simp
    | cons w' ws' =>
      show splitWsAux (joinSpaces (w :: w' :: ws')) [] = w :: w' :: ws'
      rw [show joinSpaces (w :: w' :: ws') = w ++ 32 :: joinSpaces (w' :: ws') from rfl]
      rw [splitWsAux_word_append _ w [] (h w (by simp)).2 (Or.inl (h w (by simp)).1)]
      simp only [List.reverse_nil, List.nil_append, List.cons.injEq, true_and]
      exact ih (fun v hv => h v (List.mem_cons_of_mem w hv))

/-- Every word produced by `splitWsAux` is nonempty, whitespace-free, and
made of characters satisfying any property `Q` that holds on the input and
the accumulator. -/
lemma splitWsAux_mem (Q : Nat → Prop) :
    ∀ (l acc : List Nat), (∀ c ∈ l, Q c) → (∀ c ∈ acc, isWs c = false ∧ Q c) →
      ∀ w ∈ splitWsAux l acc, w ≠ [] ∧ ∀ c ∈ w, isWs c = false ∧ Q c := by
  intro l
  induction l with
  | nil =>
    intro acc _ hacc w hw
    by_cases h : acc = []
    · simp [splitWsAux, h] at hw
    · simp only [splitWsAux, h, if_false] at hw
      simp only [List.mem_singleton] at hw
      subst hw
      refine ⟨by simp [h], fun c hc => hacc c (List.mem_reverse.1 hc)⟩
  | cons c cs ih =>
    intro acc hl hacc w hw
    have hlcs : ∀ d ∈ cs, Q d := fun d hd => hl d (List.mem_cons_of_mem c hd)
    simp only [splitWsAux] at hw
    by_cases hcws : isWs c = true
    · rw [if_pos hcws] at hw
      by_cases h : acc = []
      · rw [if_pos h] at hw
        exact ih [] hlcs (by simp) w hw
      · rw [if_neg h] at hw
        rcases List.mem_cons.1 hw with rfl | hw'
        · refine ⟨by simp [h], fun d hd => hacc d (List.mem_reverse.1 hd)⟩
        · exact ih [] hlcs (by simp) w hw'
    · have hcws' : isWs c = false := by
        cases hx : isWs c
        · rfl
        · exact absurd hx hcws
      rw [if_neg (by simp [hcws'])] at hw
      refine ih (c :: acc) hlcs ?_ w hw
      intro d hd
      rcases List.mem_cons.1 hd with rfl | hd'
      · exact ⟨hcws', hl d (List.mem_cons_self d cs)⟩
      · exact hacc d hd'

lemma splitWsAux_all_ws :
    ∀ (l acc : List Nat), (∀ c ∈ l, isWs c = true) →
      splitWsAux l acc = if acc = [] then [] else [acc.reverse] := by
  intro l
  induction l with
  | nil => intro acc _; rfl
  | cons c cs ih =>
    intro acc h
    have hc : isWs c = true := h c (List.mem_cons_self c cs)
    have hcs : ∀ d ∈ cs, isWs d = true := fun d hd => h d (List.mem_cons_of_mem c hd)
    simp only [splitWsAux, hc, if_true]
    rw [ih [] hcs]
    by_cases hacc : acc = [] <;> simp [hacc]

/-- Every word produced by `splitWs` is nonempty, whitespace-free, and made of
input characters. -/
lemma splitWs_mem (Q : Nat → Prop) (l : List Nat) (hl : ∀ c ∈ l, Q c) :
    ∀ w ∈ splitWs l, w ≠ [] ∧ ∀ c ∈ w, isWs c = false ∧ Q c :=
  splitWsAux_mem Q l [] hl (by simp)

lemma mem_of_mem_pyStrip {c : Nat} {w : List Nat} (h : c ∈ pyStrip w) : c ∈ w := by
  simp only [pyStrip, List.mem_reverse] at h
  have h1 : c ∈ (w.dropWhile isWs).reverse := List.Sublist.mem h (List.dropWhile_sublist isWs)
  rw [List.mem_reverse] at h1
  exact List.Sublist.mem h1 (List.dropWhile_sublist isWs)

lemma dropWhile_isWs_eq_self {w : List Nat} (h : ∀ c ∈ w, isWs c = false) :
    w.dropWhile isWs = w := by
  cases w with
  | nil => rfl
  | cons c cs => simp [List.dropWhile_cons, h c (List.mem_cons_self c cs)]

lemma pyStrip_eq_self {w : List Nat} (h : ∀ c ∈ w, isWs c = false) : pyStrip w = w := by
  unfold pyStrip
  rw [dropWhile_isWs_eq_self h,
    dropWhile_isWs_eq_self (fun c hc => h c (List.mem_reverse.1 hc)),
    List.reverse_reverse]

lemma map_id_of_mem {α : Type} {f : α → α} {l : List α} (h : ∀ c ∈ l, f c = c) :
    l.map f = l := by
  induction l with
  | nil => rfl
  | cons a t ih =>
    rw [List.map_cons, h a (List.mem_cons_self a t),
      ih (fun c hc => h c (List.mem_cons_of_mem a hc))]

/-- Characters of the tokens of `tokenize`: never whitespace, never
punctuation, never an apostrophe, and fixed by `pyLower`; tokens are
nonempty. -/
lemma tokenize_chars (t : List Nat) :
    ∀ w ∈ tokenize t, w ≠ [] ∧ ∀ c ∈ w,
      isWs c = false ∧ isPunct c = false ∧ c ≠ 39 ∧ pyLower c = c := by
  intro w hw
  simp only [tokenize] at hw
  obtain ⟨hw1, hne⟩ := List.mem_filter.1 hw
  obtain ⟨w', hw', hstrip⟩ := List.mem_map.1 hw1
  subst hstrip
  have hQ : ∀ c ∈ ((t.map repApos).filter (fun c => !isPunct c)).map pyLower,
      isPunct c = false ∧ c ≠ 39 ∧ pyLower c = c := by
    intro c hc
    obtain ⟨b, hb, rfl⟩ := List.mem_map.1 hc
    obtain ⟨_, hbp⟩ := List.mem_filter.1 hb
    have hbp' : isPunct b = false := by simpa using hbp
    exact ⟨isPunct_pyLower hbp', pyLower_ne_apos hbp', pyLower_pyLower b⟩
  have hsplit := splitWs_mem (fun c => isPunct c = false ∧ c ≠ 39 ∧ pyLower c = c)
    _ hQ w' hw'
  constructor
  · simpa using hne
  · intro c hc
    have hcw' : c ∈ w' := mem_of_mem_pyStrip hc
    obtain ⟨hws, hrest⟩ := hsplit.2 c hcw'
    exact ⟨hws, hrest⟩

lemma mem_joinSpaces {c : Nat} :
    ∀ {ws : List (List Nat)}, c ∈ joinSpaces ws → c = 32 ∨ ∃ w ∈ ws, c ∈ w := by
  intro ws
  induction ws with
  | nil => intro h; simp [joinSpaces] at h
  | cons w ws ih =>
    cases ws with
    | nil =>
      intro h
      right
      exact ⟨w, by simp, by simpa [joinSpaces] using h⟩
    | cons w' ws' =>
      intro h
      rw [show joinSpaces (w :: w' :: ws') = w ++ 32 :: joinSpaces (w' :: ws') from rfl] at h
      rcases List.mem_append.1 h with hw | hrest
      · exact Or.inr ⟨w, by simp, hw⟩
      · rcases List.mem_cons.1 hrest with rfl | hj
        · exact Or.inl rfl
        · rcases ih hj with h32 | ⟨v, hv, hcv⟩
          · exact Or.inl h32
          · exact Or.inr ⟨v, List.mem_cons_of_mem w hv, hcv⟩

/-- C8: the tokenizer is stable under re-tokenization — tokenizing the
single-space rejoin of `tokenize t` returns `tokenize t` again — and maps the
empty string to the empty token sequence (it is a pure function of its
argument by construction). -/
theorem tokenize_idempotent (t : List Nat) :
    tokenize (joinSpaces (tokenize t)) = tokenize t ∧ tokenize [] = [] := by
  refine ⟨?_, by decide⟩
  have hchars := tokenize_chars t
  have hJ : ∀ c ∈ joinSpaces (tokenize t),
      repApos c = c ∧ isPunct c = false ∧ pyLower c = c := by
    intro c hc
    rcases mem_joinSpaces hc with rfl | ⟨w, hw, hcw⟩
    · exact ⟨by decide, by decide, by decide⟩
    · obtain ⟨-, hprops⟩ := hchars w hw
      obtain ⟨-, hp, h39, hfix⟩ := hprops c hcw
      exact ⟨repApos_eq_self h39, hp, hfix⟩
  have h1 : (joinSpaces (tokenize t)).map repApos = joinSpaces (tokenize t) :=
    map_id_of_mem (fun c hc => (hJ c hc).1)
  have h2 : (joinSpaces (tokenize t)).filter (fun c => !isPunct c) = joinSpaces (tokenize t) :=
    List.filter_eq_self.2 (fun c hc => by simp [(hJ c hc).2.1])
  have h3 : (joinSpaces (tokenize t)).map pyLower = joinSpaces (tokenize t) :=
    map_id_of_mem (fun c hc => (hJ c hc).2.2)
  have h4 : splitWs (joinSpaces (tokenize t)) = tokenize t :=
    splitWs_joinSpaces (tokenize t)
      (fun w hw => ⟨(hchars w hw).1, fun c hc => ((hchars w hw).2 c hc).1⟩)
  have h5 : (tokenize t).map pyStrip = tokenize t :=
    map_id_of_mem (fun w hw => pyStrip_eq_self (fun c hc => ((hchars w hw).2 c hc).1))
  have h6 : (tokenize t).filter (fun w => !w.isEmpty) = tokenize t :=
    List.filter_eq_self.2 (fun w hw => by simp [(hchars w hw).1])
  show ((splitWs ((((joinSpaces (tokenize t)).map repApos).filter
      (fun c => !isPunct c)).map pyLower)).map pyStrip).filter (fun w => !w.isEmpty) =
    tokenize t
  rw [h1, h2, h3, h4, h5, h6]

/-! ### Structure of the merged repetition payload -/

lemma addRep_getD (v : Option (List (List Nat))) (r : List (List Nat)) :
    (addRep v r).getD [] = v.getD [] ++ r := by
  unfold addRep
  split_ifs with h
  · simp [h]
  · cases v <;> simp

lemma addRep_ne_nil {v : Option (List (List Nat))} {r : List (List Nat)}
    (hv : ∀ l', v = some l' → l' ≠ []) :
    ∀ l', addRep v r = some l' → l' ≠ [] := by
  intro l h
  unfold addRep at h
  split_ifs at h with hr
  · exact hv l h
  · cases v with
    | none => simp at h; subst h; exact hr
    | some l' =>
      simp at h
      subst h
      simp [hr]

/-- The `repetition` payload of `check_transition_group` is the concatenation
of the four detector outputs, in source order (`[]` when the key is absent). -/
lemma check_repetition_eq (stop exprs : List (List Nat)) (ts : List (List Nat)) :
    (check_transition_group stop exprs ts).repetition.getD [] =
      repeatedFirstWords ts ++ repeatedContentWords stop ts ++
        check_stylistic_patterns exprs ts ++ check_flexible_patterns ts := by
  simp [check_transition_group, addRep_getD]

/-- When the `repetition` key is present its payload is nonempty. -/
lemma check_repetition_some_ne_nil (stop exprs : List (List Nat)) (ts : List (List Nat)) :
    ∀ l, (check_transition_group stop exprs ts).repetition = some l → l ≠ [] := by
  intro l h
  simp only [check_transition_group] at h
  exact addRep_ne_nil (addRep_ne_nil (addRep_ne_nil (addRep_ne_nil
    (fun l' h' => by simp at h')))) l h

/-- `"repetition" in violations` coincides with "the group has at least one
repetition violation". -/
lemma check_repetition_isSome_iff (stop exprs : List (List Nat)) (ts : List (List Nat)) :
    (check_transition_group stop exprs ts).repetition.isSome = true ↔
      (check_transition_group stop exprs ts).repetition.getD [] ≠ [] := by
  cases h : (check_transition_group stop exprs ts).repetition with
  | none => simp
  | some l => simpa using check_repetition_some_ne_nil stop exprs ts l h

/-! ### First-occurrence deduplication -/

lemma mem_pyDedupAux (x : List Nat) :
    ∀ (l seen : List (List Nat)), x ∈ pyDedupAux seen l ↔ x ∈ l ∧ x ∉ seen := by
  intro l
  induction l with
  | nil => intro seen; simp [pyDedupAux]
  | cons a t ih =>
    intro seen
    simp only [pyDedupAux]
    split_ifs with ha
    · rw [ih]
      simp only [List.mem_cons]
      constructor
      · rintro ⟨hx, hs⟩
        exact ⟨Or.inr hx, hs⟩
      · rintro ⟨rfl | hx, hs⟩
        · exact absurd ha hs
        · exact ⟨hx, hs⟩
    · simp only [List.mem_cons, ih (a :: seen)]
      constructor
      · rintro (rfl | ⟨hx, hs⟩)
        · exact ⟨Or.inl rfl, ha⟩
        · exact ⟨Or.inr hx, fun hc => hs (Or.inr hc)⟩
      · rintro ⟨rfl | hx, hs⟩
        · exact Or.inl rfl
        · by_cases hxa : x = a
          · exact Or.inl hxa
          · exact Or.inr ⟨hx, fun hc => hc.elim hxa hs⟩

lemma mem_pyDedup (x : List Nat) (l : List (List Nat)) : x ∈ pyDedup l ↔ x ∈ l := by
  simp [pyDedup, mem_pyDedupAux]

/-! ### The accumulation loop of validate_batch -/

/-- Closed form of `validateLoop`: the accumulated sets are the unions of the
initial sets with the declaratively defined affected sets, and the details
list is the input order mapped through `check_transition_group`. -/
lemma validateLoop_spec (stop exprs : List (List Nat)) :
    ∀ (batch : List (String × List (List Nat))) (rv : Finset (List Nat))
      (ra ea : Finset String) (ds : List Detail),
      validateLoop stop exprs batch rv ra ea ds =
        (rv ∪ (batch.flatMap
            (fun p => (check_transition_group stop exprs p.2).repetition.getD [])).toFinset,
         ra ∪ repAffected stop exprs batch,
         ea ∪ enfinAffected stop exprs batch,
         ds ++ batch.map (fun p => ⟨p.1, p.2, check_transition_group stop exprs p.2⟩)) := by
  intro batch
  induction batch with
  | nil =>
    intro rv ra ea ds
    simp [validateLoop, repAffected, enfinAffected]
  | cons p rest ih =>
    intro rv ra ea ds
    obtain ⟨k, ts⟩ := p
    rw [show validateLoop stop exprs ((k, ts) :: rest) rv ra ea ds =
        validateLoop stop exprs rest
          (match (check_transition_group stop exprs ts).repetition with
            | some l => rv ∪ l.toFinset
            | none => rv)
          (if (check_transition_group stop exprs ts).repetition.isSome then insert k ra else ra)
          (if (check_transition_group stop exprs ts).enfin_misplaced then insert k ea else ea)
          (ds ++ [⟨k, ts, check_transition_group stop exprs ts⟩]) from rfl]
    rw [ih]
    refine Prod.ext ?_ (Prod.ext ?_ (Prod.ext ?_ ?_))
    · show _ = rv ∪ (((k, ts) :: rest).flatMap
        (fun p => (check_transition_group stop exprs p.2).repetition.getD [])).toFinset
      cases hrep : (check_transition_group stop exprs ts).repetition with
      | none => simp [hrep]
      | some l => simp [hrep, List.toFinset_append, Finset.union_assoc]
    · show _ = ra ∪ repAffected stop exprs ((k, ts) :: rest)
      cases hs : (check_transition_group stop exprs ts).repetition.isSome with
      | true =>
        have hne : (check_transition_group stop exprs ts).repetition.getD [] ≠ [] :=
          (check_repetition_isSome_iff stop exprs ts).1 hs
        have hpred : (!((check_transition_group stop exprs ts).repetition.getD []).isEmpty) =
            true := by simpa using hne
        simp only [repAffected, List.filter_cons, hpred, if_true, List.map_cons,
          List.toFinset_cons, if_pos trivial]
        simp [Finset.insert_union, Finset.union_insert]
      | false =>
        have hnil : (check_transition_group stop exprs ts).repetition.getD [] = [] := by
          cases hrep : (check_transition_group stop exprs ts).repetition with
          | none => rfl
          | some l => rw [hrep] at hs; simp at hs
        have hpred : (!((check_transition_group stop exprs ts).repetition.getD []).isEmpty) =
            false := by simp [hnil]
        simp only [repAffected, List.filter_cons, hpred, if_false, hs, Bool.false_eq_true]
    · show _ = ea ∪ enfinAffected stop exprs ((k, ts) :: rest)
      cases henf : (check_transition_group stop exprs ts).enfin_misplaced with
      | true =>
        simp only [enfinAffected, List.filter_cons, henf, if_true, List.map_cons,
          List.toFinset_cons, if_pos trivial]
        simp [Finset.insert_union, Finset.union_insert]
      | false =>
        simp only [enfinAffected, List.filter_cons, henf, if_false, Bool.false_eq_true]
    · show _ = ds ++ ((k, ts) :: rest).map
        (fun p => (⟨p.1, p.2, check_transition_group stop exprs p.2⟩ : Detail))
      simp

/-! ### C1: the union invariant of outputs_with_violations -/

/-- C1: `outputs_with_violations` equals the cardinality of the union of the
set of keys whose group has at least one repetition violation with the set of
keys whose group has `enfin_misplaced` — a group violating both rules is
counted once, never twice. -/
theorem outputs_with_violations_union (stop exprs : List (List Nat))
    (batch : List (String × List (List Nat))) :
    (validate_batch stop exprs batch).outputs_with_violations =
      (repAffected stop exprs batch ∪ enfinAffected stop exprs batch).card := by
  simp [validate_batch, validateLoop_spec]

/-! ### C5: order and key preservation of the details list -/

/-- C5: the `details` list has the same length as the input and reproduces the
caller-supplied group keys verbatim, in input order, independently of any
violations. -/
theorem details_order_preserved (stop exprs : List (List Nat))
    (batch : List (String × List (List Nat))) :
    (validate_batch stop exprs batch).details.length = batch.length ∧
    (validate_batch stop exprs batch).details.map Detail.output_id = batch.map Prod.fst ∧
    ∀ i, ∀ h : i < batch.length, ∀ h' : i < (validate_batch stop exprs batch).details.length,
      ((validate_batch stop exprs batch).details.get ⟨i, h'⟩).output_id =
        (batch.get ⟨i, h⟩).1 := by
  have hd : (validate_batch stop exprs batch).details =
      batch.map (fun p => ⟨p.1, p.2, check_transition_group stop exprs p.2⟩) := by
    simp [validate_batch, validateLoop_spec]
  refine ⟨by simp [hd], by simp [hd, Detail.output_id], ?_⟩
  intro i h h'
  rw [List.get_eq_getElem, List.get_eq_getElem]
  simp [hd]

/-! ### C10: the summary counts count affected outputs -/

/-- C10: each summary `count` is the number of distinct affected group keys —
the length of the corresponding sorted `affected_outputs` list — not the
number of distinct violated words. -/
theorem summary_counts_are_affected_outputs (stop exprs : List (List Nat))
    (batch : List (String × List (List Nat))) :
    (validate_batch stop exprs batch).violations_summary.repetition.count =
      (repAffected stop exprs batch).card ∧
    (validate_batch stop exprs batch).violations_summary.repetition.count =
      (validate_batch stop exprs batch).violations_summary.repetition.affected_outputs.length ∧
    (validate_batch stop exprs batch).violations_summary.enfin_misplaced.count =
      (enfinAffected stop exprs batch).card ∧
    (validate_batch stop exprs batch).violations_summary.enfin_misplaced.count =
      (validate_batch stop exprs
        batch).violations_summary.enfin_misplaced.affected_outputs.length := by
  simp [validate_batch, validateLoop_spec, Finset.length_sort]

/-! ### C6: first-word repetition -/

/-- C6: the first-word detector records exactly the first-token values (first
token of each transition, stopwords included, verbatim) occurring at least
twice across the group; whatever it records lands in the merged `repetition`
payload of `check_transition_group`; and the spec's example group yields a
repetition violation containing "par". -/
theorem first_word_repetition (stop exprs : List (List Nat)) (ts : List (List Nat)) :
    (∀ w, w ∈ repeatedFirstWords ts ↔ 1 < (firstWords ts).count w) ∧
    (∀ w, w ∈ repeatedFirstWords ts →
      w ∈ (check_transition_group stop exprs ts).repetition.getD []) ∧
    chars "par" ∈ (check_transition_group stop exprs
      [chars "Par ailleurs,", chars "Par contre,", chars "Par exemple,"]).repetition.getD [] := by
  refine ⟨?_, ?_, ?_⟩
  · intro w
    simp only [repeatedFirstWords, List.mem_filter, mem_pyDedup, decide_eq_true_eq]
    constructor
    · rintro ⟨-, h⟩
      exact h
    · intro h
      exact ⟨List.count_pos_iff.1 (by omega), h⟩
  · intro w hw
    rw [check_repetition_eq]
    exact List.mem_append_left _ (List.mem_append_left _ (List.mem_append_left _ hw))
  · rw [check_repetition_eq]
    refine List.mem_append_left _ (List.mem_append_left _ (List.mem_append_left _ ?_))
    decide

/-- Witness for `first_word_repetition` at the spec's example group. -/
theorem first_word_repetition_witness :
    chars "par" ∈ repeatedFirstWords
        [chars "Par ailleurs,", chars "Par contre,", chars "Par exemple,"] ∧
    chars "par" ∈ (check_transition_group [] []
        [chars "Par ailleurs,", chars "Par contre,", chars "Par exemple,"]).repetition.getD [] :=
  ⟨by decide, (first_word_repetition [] []
    [chars "Par ailleurs,", chars "Par contre,", chars "Par exemple,"]).2.1
      (chars "par") (by decide)⟩

/-! ### C3: stylistic n-gram repetition -/

/-- C3 counterexample: the bigram "en conclusion" occurring twice inside a
single transition already triggers the stylistic rule, although the expression
appears in only one transition of the group (the rule counts n-gram
occurrences, not transitions). -/
theorem stylistic_single_transition_triggers :
    check_stylistic_patterns [chars "en conclusion"]
        [chars "en conclusion en conclusion"] = [chars "en conclusion"] ∧
    ([chars "en conclusion en conclusion"] : List (List Nat)).length = 1 := by decide

/-- C3 amended: a known stylistic expression is recorded exactly when its
count among the group's per-transition bigrams and trigrams exceeds 1; an
expression contributing at least one n-gram occurrence in each of two
different transitions always triggers, but two occurrences within a single
transition trigger as well (transition counts are not what is counted). -/
theorem stylistic_repetition_iff (exprs : List (List Nat)) :
    (∀ ts e, e ∈ check_stylistic_patterns exprs ts ↔
      e ∈ exprs ∧ 1 < (groupNgrams ts).count e) ∧
    (∀ e l₁ t₁ l₂ t₂ l₃, e ∈ exprs → 0 < (transNgrams t₁).count e →
      0 < (transNgrams t₂).count e →
      e ∈ check_stylistic_patterns exprs (l₁ ++ t₁ :: (l₂ ++ t₂ :: l₃))) := by
  constructor
  · intro ts e
    simp [check_stylistic_patterns, List.mem_filter]
  · intro e l₁ t₁ l₂ t₂ l₃ he h1 h2
    simp only [check_stylistic_patterns, List.mem_filter, decide_eq_true_eq]
    refine ⟨he, ?_⟩
    simp only [groupNgrams, List.flatMap_append, List.flatMap_cons, List.count_append]
    omega

/-- Witness for `stylistic_repetition_iff`: "en conclusion" used once in each
of two transitions is flagged. -/
theorem stylistic_repetition_iff_witness :
    chars "en conclusion" ∈ ([chars "en conclusion"] : List (List Nat)) ∧
    0 < (transNgrams (chars "En conclusion, bla")).count (chars "en conclusion") ∧
    0 < (transNgrams (chars "et en conclusion voila")).count (chars "en conclusion") ∧
    chars "en conclusion" ∈ check_stylistic_patterns [chars "en conclusion"]
      ([] ++ chars "En conclusion, bla" :: ([] ++ chars "et en conclusion voila" :: [])) :=
  ⟨by decide, by decide, by decide,
    (stylistic_repetition_iff [chars "en conclusion"]).2 (chars "en conclusion")
      [] (chars "En conclusion, bla") [] (chars "et en conclusion voila") []
      (by decide) (by decide) (by decide)⟩

/-! ### C4: groups of at most one transition -/

/-- C4 counterexample: a single-transition group in which a non-stopword
mid-sentence word repeats does produce a content-word repetition violation
(the pooled counting is per occurrence, not per transition). -/
theorem single_transition_content_repetition :
    ([chars "et region region"] : List (List Nat)).length ≤ 1 ∧
    repeatedContentWords [] [chars "et region region"] = [chars "region"] ∧
    (check_transition_group [] [] [chars "et region region"]).repetition =
      some [chars "region"] := by decide

/-- C4 amended: a group of at most one transition never triggers the
first-word repetition rule and never sets `enfin_misplaced` (the lone
transition is always last); content-word repetition, in contrast, can trigger
within a single transition, as `single_transition_content_repetition` shows. -/
theorem small_group_no_first_word_no_enfin (stop exprs : List (List Nat))
    (ts : List (List Nat)) (h : ts.length ≤ 1) :
    repeatedFirstWords ts = [] ∧
    (check_transition_group stop exprs ts).enfin_misplaced = false := by
  match ts, h with
  | [], _ =>
    exact ⟨by decide, by simp [check_transition_group, enfinMisplaced, enfinScan]⟩
  | [t], _ =>
    constructor
    · apply List.filter_eq_nil_iff.2
      intro w hw
      have h2 : (firstWords [t]).length ≤ 1 := by
        simpa [firstWords] using List.length_filterMap_le (fun t => (tokenize t).head?) [t]
      have h1 : (firstWords [t]).count w ≤ 1 :=
        le_trans (List.count_le_length w (firstWords [t])) h2
      simp only [decide_eq_true_eq, not_lt]
      omega
    · simp [check_transition_group, enfinMisplaced, enfinScan]

/-- Witness for `small_group_no_first_word_no_enfin`: even a lone transition
containing "enfin" triggers nothing. -/
theorem small_group_no_first_word_no_enfin_witness :
    ([chars "Enfin seul"] : List (List Nat)).length ≤ 1 ∧
    (repeatedFirstWords [chars "Enfin seul"] = [] ∧
      (check_transition_group [] [] [chars "Enfin seul"]).enfin_misplaced = false) :=
  ⟨by decide, small_group_no_first_word_no_enfin [] [] [chars "Enfin seul"] (by decide)⟩

/-- C2: `check_transition_group` sets `enfin_misplaced` exactly when the token
"enfin" occurs in a transition that is not the last of the group (the Python
loop scans in order and `break`s at the first offense, which the
short-circuiting `||` of `enfinScan` reproduces; the produced flag is the
same); in particular a one-transition group never sets it. -/
theorem enfin_misplaced_iff (stop exprs : List (List Nat)) (ts : List (List Nat)) :
    ((check_transition_group stop exprs ts).enfin_misplaced = true ↔
      ∃ i, ∃ h : i < ts.length,
        i ≠ ts.length - 1 ∧ chars "enfin" ∈ tokenize (ts.get ⟨i, h⟩)) ∧
    ∀ t, (check_transition_group stop exprs [t]).enfin_misplaced = false := by
  constructor
  · have := enfinScan_iff ts.length ts 0
    simpa [check_transition_group, enfinMisplaced] using this
  · intro t
    simp [check_transition_group, enfinMisplaced, enfinScan]

/-! ### C9: tolerance of malformed input -/

lemma tokenize_all_ws {t : List Nat} (h : ∀ c ∈ t, isWs c = true) : tokenize t = [] := by
  have hclean : ∀ c ∈ ((t.map repApos).filter (fun c => !isPunct c)).map pyLower,
      isWs c = true := by
    intro c hc
    obtain ⟨b, hb, rfl⟩ := List.mem_map.1 hc
    obtain ⟨hb1, -⟩ := List.mem_filter.1 hb
    obtain ⟨a, ha, rfl⟩ := List.mem_map.1 hb1
    have hstab := ws_char_stable (h a ha)
    rw [hstab.1]
    exact hstab.2.2.2
  have hsplit : splitWs (((t.map repApos).filter (fun c => !isPunct c)).map pyLower) = [] := by
    unfold splitWs
    rw [splitWsAux_all_ws _ [] hclean]
    simp
  simp only [tokenize, hsplit, List.map_nil, List.filter_nil]

lemma firstWords_all_ws {ts : List (List Nat)} (h : ∀ t ∈ ts, tokenize t = []) :
    firstWords ts = [] := by
  apply List.filterMap_eq_nil_iff.2
  intro t ht
  rw [h t ht]
  rfl

lemma contentWords_all_ws {stop : List (List Nat)} {ts : List (List Nat)}
    (h : ∀ t ∈ ts, tokenize t = []) : contentWords stop ts = [] := by
  apply List.flatMap_eq_nil_iff.2
  intro t ht
  simp [h t ht]

lemma check_stylistic_all_ws {exprs ts : List (List Nat)}
    (h : ∀ t ∈ ts, tokenize t = []) : check_stylistic_patterns exprs ts = [] := by
  have hng : groupNgrams ts = [] := by
    apply List.flatMap_eq_nil_iff.2
    intro t ht
    simp [transNgrams, h t ht, extract_ngrams]
  apply List.filter_eq_nil_iff.2
  intro e _
  simp [hng]

lemma startsWith_head {a : Nat} {as s : List Nat} (h : startsWith (a :: as) s = true) :
    ∃ bs, s = a :: bs := by
  cases s with
  | nil => simp [startsWith] at h
  | cons b bs =>
    simp only [startsWith, Bool.and_eq_true, beq_iff_eq] at h
    exact ⟨bs, by rw [h.1]⟩

lemma litThenWordAt_ws {lit s : List Nat} (hne : lit ≠ [])
    (hhead : isWs (lit.headD 0) = false) (hs : ∀ c ∈ s, isWs c = true) :
    litThenWordAt lit s = false := by
  cases lit with
  | nil => exact absurd rfl hne
  | cons a as =>
    simp only [List.headD_cons] at hhead
    apply List.any_eq_false.2
    intro i _ hp
    rw [Bool.and_eq_true] at hp
    obtain ⟨bs, hbs⟩ := startsWith_head hp.1
    have hmem : a ∈ s.drop i := by rw [hbs]; exact List.mem_cons_self a bs
    have hws := hs a (List.mem_of_mem_drop hmem)
    rw [hhead] at hws
    exact Bool.false_ne_true hws

lemma litAt_ws {lit s : List Nat} (hne : lit ≠ [])
    (hhead : isWs (lit.headD 0) = false) (hs : ∀ c ∈ s, isWs c = true) :
    litAt lit s = false := by
  cases lit with
  | nil => exact absurd rfl hne
  | cons a as =>
    simp only [List.headD_cons] at hhead
    apply List.any_eq_false.2
    intro i _ hp
    obtain ⟨bs, hbs⟩ := startsWith_head hp
    have hmem : a ∈ s.drop i := by rw [hbs]; exact List.mem_cons_self a bs
    have hws := hs a (List.mem_of_mem_drop hmem)
    rw [hhead] at hws
    exact Bool.false_ne_true hws

/-- No fixed flexible template matches a whitespace-only string. -/
lemma flexMatchers_ws :
    ∀ pm ∈ flexMatchers, ∀ s : List Nat, (∀ c ∈ s, isWs c = true) → pm.1 s = false := by
  intro pm hpm s hs
  simp only [flexMatchers, List.mem_cons, List.not_mem_nil, or_false] at hpm
  rcases hpm with rfl | rfl | rfl | rfl | rfl | rfl
  · simp [anyLitThenWord,
      litThenWordAt_ws (show chars "sur un autre " ≠ [] by decide) (by decide) hs,
      litThenWordAt_ws (show chars "dans un autre " ≠ [] by decide) (by decide) hs,
      litThenWordAt_ws (show chars "par un autre " ≠ [] by decide) (by decide) hs]
  · simp [anyLitThenWord,
      litThenWordAt_ws (show chars "sur la même " ≠ [] by decide) (by decide) hs,
      litThenWordAt_ws (show chars "dans la même " ≠ [] by decide) (by decide) hs,
      litThenWordAt_ws (show chars "par la même " ≠ [] by decide) (by decide) hs]
  · simp [anyLitThenWord,
      litThenWordAt_ws (show chars "sur le même " ≠ [] by decide) (by decide) hs,
      litThenWordAt_ws (show chars "dans le même " ≠ [] by decide) (by decide) hs,
      litThenWordAt_ws (show chars "par le même " ≠ [] by decide) (by decide) hs]
  · exact litThenWordAt_ws (show chars "dans l" ++ [39] ++ chars "actualité " ≠ [] by decide)
      (by decide) hs
  · simp [anyLit,
      litAt_ws (show chars "pour terminer" ≠ [] by decide) (by decide) hs,
      litAt_ws (show chars "pour conclure" ≠ [] by decide) (by decide) hs,
      litAt_ws (show chars "pour finir" ≠ [] by decide) (by decide) hs]
  · simp [anyLitThenWord,
      litThenWordAt_ws (show chars "signalons " ≠ [] by decide) (by decide) hs,
      litThenWordAt_ws (show chars "sachez " ≠ [] by decide) (by decide) hs,
      litThenWordAt_ws (show chars "nous " ≠ [] by decide) (by decide) hs]

lemma check_flexible_all_ws {ts : List (List Nat)}
    (h : ∀ t ∈ ts, ∀ c ∈ t, isWs c = true) : check_flexible_patterns ts = [] := by
  apply List.filterMap_eq_nil_iff.2
  intro pm hpm
  have hfil : ts.filter (fun t => pm.1 (t.map pyLower)) = [] := by
    apply List.filter_eq_nil_iff.2
    intro t ht hp
    have hws : ∀ c ∈ t.map pyLower, isWs c = true := by
      intro c hc
      obtain ⟨b, hb, rfl⟩ := List.mem_map.1 hc
      exact (ws_char_stable (h t ht b hb)).2.2.2
    rw [flexMatchers_ws pm hpm _ hws] at hp
    exact Bool.false_ne_true hp
  rw [hfil]
  simp

lemma enfinScan_all_nil {len : Nat} :
    ∀ (l : List (List Nat)) (i : Nat), (∀ t ∈ l, tokenize t = []) →
      enfinScan len i l = false := by
  intro l
  induction l with
  | nil => intro i _; rfl
  | cons t rest ih =>
    intro i h
    simp only [enfinScan, h t (List.mem_cons_self t rest), Bool.or_eq_false_iff]
    refine ⟨by simp, ih (i + 1) (fun u hu => h u (List.mem_cons_of_mem t hu))⟩

/-- C9 counterexample: a batch containing a non-string transition makes the
validator raise `AttributeError` (inside `tokenize`, at `text.replace`) rather
than being tolerated. -/
theorem non_string_transition_raises :
    validate_batch_dyn [] [] [("article_1", [PyVal.pyInt 0])] =
      Except.error (chars "AttributeError") := by rfl

/-- C9 amended: an empty group list yields the all-zero report with empty
summary lists and empty details; a group made only of empty or
whitespace-only transitions produces the empty violation record; but a
non-string transition is NOT tolerated — it raises `AttributeError`. -/
theorem malformed_input_tolerance (stop exprs : List (List Nat)) (ts : List (List Nat))
    (hts : ∀ t ∈ ts, ∀ c ∈ t, isWs c = true) (k : String) (v : PyVal)
    (hv : isPyStr v = false) :
    validate_batch stop exprs [] = ⟨0, 0, ⟨⟨0, [], []⟩, ⟨0, []⟩⟩, []⟩ ∧
    check_transition_group stop exprs ts = ⟨none, false⟩ ∧
    validate_batch_dyn stop exprs [(k, [v])] = Except.error (chars "AttributeError") := by
  refine ⟨?_, ?_, ?_⟩
  · simp [validate_batch, validateLoop]
  · have htok : ∀ t ∈ ts, tokenize t = [] := fun t ht => tokenize_all_ws (hts t ht)
    have h1 : repeatedFirstWords ts = [] := by
      simp [repeatedFirstWords, firstWords_all_ws htok, pyDedup, pyDedupAux]
    have h2 : repeatedContentWords stop ts = [] := by
      simp [repeatedContentWords, contentWords_all_ws htok, pyDedup, pyDedupAux]
    have h3 : check_stylistic_patterns exprs ts = [] := check_stylistic_all_ws htok
    have h4 : check_flexible_patterns ts = [] := check_flexible_all_ws hts
    have h5 : enfinMisplaced ts = false := enfinScan_all_nil ts 0 htok
    simp [check_transition_group, h1, h2, h3, h4, h5, addRep]
  · cases v with
    | pyStr s => simp [isPyStr] at hv
    | pyInt n => rfl
    | pyNone => rfl

/-- Witness for `malformed_input_tolerance` at a concrete whitespace-only
group and a concrete non-string value. -/
theorem malformed_input_tolerance_witness :
    (∀ t ∈ ([[32], []] : List (List Nat)), ∀ c ∈ t, isWs c = true) ∧
    isPyStr PyVal.pyNone = false ∧
    (validate_batch [] [] [] = ⟨0, 0, ⟨⟨0, [], []⟩, ⟨0, []⟩⟩, []⟩ ∧
      check_transition_group [] [] [[32], []] = ⟨none, false⟩ ∧
      validate_batch_dyn [] [] [("k", [PyVal.pyNone])] =
        Except.error (chars "AttributeError")) :=
  ⟨by decide, by decide,
    malformed_input_tolerance [] [] [[32], []] (by decide) "k" PyVal.pyNone (by decide)⟩
